import Mathlib

/-!
Verification of the double-pendulum simulator core (src/main.py).

The physical quantities are embedded over the real numbers: Python floats
become elements of the real field, and the functions of the source are
translated term by term.  The trajectory buffer is embedded with lists of
points and a natural-number cursor, mirroring the Python list plus index.
-/

namespace DoublePendulumSim

open Real

/-- A double pendulum: parameters and state, mirroring the fields of the
Python class DoublePendulum (src/main.py, lines 11-23). -/
structure Pendulum where
  m1 : ℝ
  m2 : ℝ
  L1 : ℝ
  L2 : ℝ
  g : ℝ
  damping : ℝ
  theta1 : ℝ
  theta2 : ℝ
  omega1 : ℝ
  omega2 : ℝ

/-- First denominator of the derivatives function
(src/main.py, line 41). -/
noncomputable def den1 (pd : Pendulum) (delta : ℝ) : ℝ :=
  (pd.m1 + pd.m2) * pd.L1 - pd.m2 * pd.L1 * Real.cos delta ^ 2

/-- Second denominator of the derivatives function
(src/main.py, line 42). -/
noncomputable def den2 (pd : Pendulum) (delta : ℝ) : ℝ :=
  (pd.L2 / pd.L1) * den1 pd delta

/-- Embedding of DoublePendulum._derivatives (src/main.py, lines 37-65):
angular velocities and accelerations at the supplied state, with viscous
damping subtracted from each angular acceleration. -/
noncomputable def Pendulum.derivatives (pd : Pendulum)
    (theta1 theta2 omega1 omega2 : ℝ) : ℝ × ℝ × ℝ × ℝ :=
  let delta := theta2 - theta1
  let domega1 :=
    (pd.m2 * pd.L1 * omega1 ^ 2 * Real.sin delta * Real.cos delta
      + pd.m2 * pd.g * Real.sin theta2 * Real.cos delta
      + pd.m2 * pd.L2 * omega2 ^ 2 * Real.sin delta
      - (pd.m1 + pd.m2) * pd.g * Real.sin theta1) / den1 pd delta
  let domega2 :=
    (-pd.m2 * pd.L2 * omega2 ^ 2 * Real.sin delta * Real.cos delta
      + (pd.m1 + pd.m2)
        * (pd.g * Real.sin theta1 * Real.cos delta
          - pd.L1 * omega1 ^ 2 * Real.sin delta
          - pd.g * Real.sin theta2)) / den2 pd delta
  (omega1, omega2,
   domega1 - pd.damping * omega1,
   domega2 - pd.damping * omega2)

/-- Embedding of DoublePendulum.step (src/main.py, lines 67-94): one
fourth-order Runge-Kutta step of size dt, updating only the four state
fields. -/
noncomputable def Pendulum.step (pd : Pendulum) (dt : ℝ) : Pendulum :=
  let k1 := pd.derivatives pd.theta1 pd.theta2 pd.omega1 pd.omega2
  let k2 := pd.derivatives
    (pd.theta1 + 0.5 * dt * k1.1)
    (pd.theta2 + 0.5 * dt * k1.2.1)
    (pd.omega1 + 0.5 * dt * k1.2.2.1)
    (pd.omega2 + 0.5 * dt * k1.2.2.2)
  let k3 := pd.derivatives
    (pd.theta1 + 0.5 * dt * k2.1)
    (pd.theta2 + 0.5 * dt * k2.2.1)
    (pd.omega1 + 0.5 * dt * k2.2.2.1)
    (pd.omega2 + 0.5 * dt * k2.2.2.2)
  let k4 := pd.derivatives
    (pd.theta1 + dt * k3.1)
    (pd.theta2 + dt * k3.2.1)
    (pd.omega1 + dt * k3.2.2.1)
    (pd.omega2 + dt * k3.2.2.2)
  { pd with
    theta1 := pd.theta1 + dt / 6 * (k1.1 + 2 * k2.1 + 2 * k3.1 + k4.1)
    theta2 := pd.theta2 + dt / 6 * (k1.2.1 + 2 * k2.2.1 + 2 * k3.2.1 + k4.2.1)
    omega1 := pd.omega1 + dt / 6 * (k1.2.2.1 + 2 * k2.2.2.1 + 2 * k3.2.2.1 + k4.2.2.1)
    omega2 := pd.omega2 + dt / 6 * (k1.2.2.2 + 2 * k2.2.2.2 + 2 * k3.2.2.2 + k4.2.2.2) }

/-- Embedding of DoublePendulum.positions (src/main.py, lines 96-101):
world-space coordinates of the two joints, y measured downward-positive. -/
noncomputable def Pendulum.positions (pd : Pendulum) : (ℝ × ℝ) × (ℝ × ℝ) :=
  let x1 := pd.L1 * Real.sin pd.theta1
  let y1 := pd.L1 * Real.cos pd.theta1
  let x2 := x1 + pd.L2 * Real.sin pd.theta2
  let y2 := y1 + pd.L2 * Real.cos pd.theta2
  ((x1, y1), (x2, y2))

/-- Embedding of DoublePendulum.energy (src/main.py, lines 103-116):
total mechanical energy, recomputed from the current state. -/
noncomputable def Pendulum.energy (pd : Pendulum) : ℝ :=
  let y1 := (pd.positions).1.2
  let y2 := (pd.positions).2.2
  let v1sq := (pd.L1 * pd.omega1) ^ 2
  let v2sq := v1sq + (pd.L2 * pd.omega2) ^ 2
    + 2 * pd.L1 * pd.L2 * pd.omega1 * pd.omega2 * Real.cos (pd.theta1 - pd.theta2)
  let T := 0.5 * pd.m1 * v1sq + 0.5 * pd.m2 * v2sq
  let V := -pd.g * (pd.m1 * y1 + pd.m2 * y2)
  T + V

/-- Kinetic energy written out as the specification states it: both link
speeds squared, including the angular-velocity coupling cross term. -/
noncomputable def kineticEnergySpec (pd : Pendulum) : ℝ :=
  0.5 * pd.m1 * (pd.L1 * pd.omega1) ^ 2
    + 0.5 * pd.m2 * ((pd.L1 * pd.omega1) ^ 2 + (pd.L2 * pd.omega2) ^ 2
      + 2 * pd.L1 * pd.L2 * pd.omega1 * pd.omega2 * Real.cos (pd.theta1 - pd.theta2))

/-- Potential energy written out as the specification states it:
negated gravity times mass-weighted downward-positive joint heights
taken from the positions function. -/
noncomputable def potentialEnergySpec (pd : Pendulum) : ℝ :=
  -pd.g * (pd.m1 * (pd.positions).1.2 + pd.m2 * (pd.positions).2.2)

/-- The concrete scenario of the specification: unit masses and lengths,
g = 9.81, no damping, both angles at half pi, velocities zero. -/
noncomputable def scenarioPendulum : Pendulum :=
  ⟨1, 1, 1, 1, 9.81, 0, Real.pi / 2, Real.pi / 2, 0, 0⟩

/-- C4: for positive masses and lengths the denominator of the derivatives
function is bounded below by m1 * L1, hence both denominators are nonzero
and no division in the derivatives function divides by zero. -/
theorem c4_denominator_bounded (pd : Pendulum)
    (hm1 : 0 < pd.m1) (hm2 : 0 < pd.m2) (hL1 : 0 < pd.L1) (hL2 : 0 < pd.L2)
    (delta : ℝ) :
    pd.m1 * pd.L1 ≤ den1 pd delta ∧ den1 pd delta ≠ 0 ∧ den2 pd delta ≠ 0 := by
  have hc1 : Real.cos delta ≤ 1 := Real.cos_le_one delta
  have hc2 : -1 ≤ Real.cos delta := Real.neg_one_le_cos delta
  have hcsq : Real.cos delta ^ 2 ≤ 1 := by nlinarith
  have hmul : pd.m2 * pd.L1 * Real.cos delta ^ 2 ≤ pd.m2 * pd.L1 * 1 :=
    mul_le_mul_of_nonneg_left hcsq (mul_pos hm2 hL1).le
  have hlow : pd.m1 * pd.L1 ≤ den1 pd delta := by
    unfold den1; nlinarith
  have hpos : 0 < den1 pd delta := lt_of_lt_of_le (mul_pos hm1 hL1) hlow
  refine ⟨hlow, ne_of_gt hpos, ?_⟩
  unfold den2
  exact ne_of_gt (mul_pos (div_pos hL2 hL1) hpos)

/-- Witness for C4 at unit masses and lengths and delta = 0. -/
theorem c4_denominator_bounded_witness :
    scenarioPendulum.m1 * scenarioPendulum.L1 ≤ den1 scenarioPendulum 0 ∧
    den1 scenarioPendulum 0 ≠ 0 ∧ den2 scenarioPendulum 0 ≠ 0 :=
  c4_denominator_bounded scenarioPendulum
    (by simp [scenarioPendulum]) (by simp [scenarioPendulum])
    (by simp [scenarioPendulum]) (by simp [scenarioPendulum]) 0

/-- C6: the energy function equals the sum of the kinetic energy with the
angular-velocity coupling cross term and the potential energy computed
from the downward-positive joint heights of the positions function; it is
a pure function of the current state, recomputed on each call. -/
theorem c6_energy_decomposition (pd : Pendulum) :
    pd.energy = kineticEnergySpec pd + potentialEnergySpec pd := by
  simp only [Pendulum.energy, kineticEnergySpec, potentialEnergySpec]

/-- C10: the integrator step never modifies the six parameters, and a step
of size zero leaves the whole pendulum, state included, unchanged. -/
theorem c10_step_zero_identity (pd : Pendulum) (dt : ℝ) :
    (pd.step dt).m1 = pd.m1 ∧ (pd.step dt).m2 = pd.m2 ∧
    (pd.step dt).L1 = pd.L1 ∧ (pd.step dt).L2 = pd.L2 ∧
    (pd.step dt).g = pd.g ∧ (pd.step dt).damping = pd.damping ∧
    pd.step 0 = pd := by
  refine ⟨rfl, rfl, rfl, rfl, rfl, rfl, ?_⟩
  simp [Pendulum.step]

/-- C2 counterexample: in the stated scenario the energy is exactly 0 J,
not within 1e-2 of -29.43 J. -/
theorem c2_energy_counterexample :
    scenarioPendulum.energy = 0 ∧
    ¬ |scenarioPendulum.energy - (-29.43)| ≤ 1e-2 := by
  have he : scenarioPendulum.energy = 0 := by
    simp [Pendulum.energy, Pendulum.positions, scenarioPendulum,
      Real.cos_pi_div_two]
  refine ⟨he, ?_⟩
  rw [he]
  rw [show |(0 : ℝ) - (-29.43)| = 29.43 by rw [abs_of_nonneg] <;> norm_num]
  norm_num

/-- C2 amended: in the stated scenario the positions are (1, 0) and (2, 0)
as claimed, and the energy is exactly 0 J (so within 1e-2 of 0 J, not of
-29.43 J, which is the energy of the hanging configuration). -/
theorem c2_scenario_amended :
    scenarioPendulum.positions = ((1, 0), (2, 0)) ∧
    |scenarioPendulum.energy - 0| ≤ 1e-2 := by
  constructor
  · norm_num [Pendulum.positions, scenarioPendulum, Real.sin_pi_div_two,
      Real.cos_pi_div_two]
  · have he : scenarioPendulum.energy = 0 := by
      simp [Pendulum.energy, Pendulum.positions, scenarioPendulum,
        Real.cos_pi_div_two]
    rw [he]
    norm_num

/-- Classical explicit fourth-order Runge-Kutta scheme, written as the
specification states it: four evaluations of the derivative function (base
state, two half-step midpoint estimates, one full-step estimate), combined
with weights 1:2:2:1 over 6. -/
noncomputable def rk4Classical (f : ℝ → ℝ → ℝ → ℝ → ℝ × ℝ × ℝ × ℝ)
    (dt a b c d : ℝ) : ℝ × ℝ × ℝ × ℝ :=
  let k1 := f a b c d
  let k2 := f (a + dt / 2 * k1.1) (b + dt / 2 * k1.2.1)
    (c + dt / 2 * k1.2.2.1) (d + dt / 2 * k1.2.2.2)
  let k3 := f (a + dt / 2 * k2.1) (b + dt / 2 * k2.2.1)
    (c + dt / 2 * k2.2.2.1) (d + dt / 2 * k2.2.2.2)
  let k4 := f (a + dt * k3.1) (b + dt * k3.2.1)
    (c + dt * k3.2.2.1) (d + dt * k3.2.2.2)
  (a + dt / 6 * (k1.1 + 2 * k2.1 + 2 * k3.1 + k4.1),
   b + dt / 6 * (k1.2.1 + 2 * k2.2.1 + 2 * k3.2.1 + k4.2.1),
   c + dt / 6 * (k1.2.2.1 + 2 * k2.2.2.1 + 2 * k3.2.2.1 + k4.2.2.1),
   d + dt / 6 * (k1.2.2.2 + 2 * k2.2.2.2 + 2 * k3.2.2.2 + k4.2.2.2))

/-- C5: for every pendulum and every step size, positive or negative, one
integrator step is exactly the classical fourth-order Runge-Kutta scheme
applied to the derivatives function, and it touches no parameter field. -/
theorem c5_step_is_rk4 (pd : Pendulum) (dt : ℝ) :
    pd.step dt =
      { pd with
        theta1 := (rk4Classical pd.derivatives dt
          pd.theta1 pd.theta2 pd.omega1 pd.omega2).1
        theta2 := (rk4Classical pd.derivatives dt
          pd.theta1 pd.theta2 pd.omega1 pd.omega2).2.1
        omega1 := (rk4Classical pd.derivatives dt
          pd.theta1 pd.theta2 pd.omega1 pd.omega2).2.2.1
        omega2 := (rk4Classical pd.derivatives dt
          pd.theta1 pd.theta2 pd.omega1 pd.omega2).2.2.2 } := by
  have h : ∀ x : ℝ, 0.5 * dt * x = dt / 2 * x := by intro x; ring
  simp only [Pendulum.step, rk4Classical, h]

/-- Sizes of the sub-steps taken by the sub-stepping integration loop of
Simulator.run (src/main.py, lines 316-325) when it starts from the given
remaining interval, with enough loop iterations allowed as fuel. -/
noncomputable def substepSizes : ℕ → ℝ → List ℝ
  | 0, _ => []
  | n + 1, remaining =>
    if 0 < remaining then
      min remaining 0.002 :: substepSizes n (remaining - min remaining 0.002)
    else []

/-- Embedding of the sub-stepping integration loop of Simulator.run
(src/main.py, lines 316-325): while the remaining interval is positive,
step by the smaller of the remainder and 0.002 and subtract it. -/
noncomputable def integrateLoop : ℕ → ℝ → Pendulum → Pendulum
  | 0, _, pd => pd
  | n + 1, remaining, pd =>
    if 0 < remaining then
      integrateLoop n (remaining - min remaining 0.002)
        (pd.step (min remaining 0.002))
    else pd

theorem substepSizes_nonpos (n : ℕ) (r : ℝ) (hr : ¬ 0 < r) :
    substepSizes n r = [] := by
  cases n with
  | zero => rfl
  | succ m => simp [substepSizes, hr]

theorem integrateLoop_nonpos (n : ℕ) (r : ℝ) (pd : Pendulum) (hr : ¬ 0 < r) :
    integrateLoop n r pd = pd := by
  cases n with
  | zero => rfl
  | succ m => simp [integrateLoop, hr]

/-- C1: integrating a positive host-requested interval subdivides it into
sub-steps that are each positive and at most 0.002 s and that sum exactly
to the requested interval, and the loop result is the composition of
single RK4 steps of those sizes. -/
theorem c1_substepping (pd : Pendulum) (dt : ℝ) (n : ℕ)
    (hdt : 0 < dt) (hn : dt ≤ n * 0.002) :
    (substepSizes n dt).sum = dt ∧
    (∀ d ∈ substepSizes n dt, 0 < d ∧ d ≤ 0.002) ∧
    integrateLoop n dt pd = (substepSizes n dt).foldl (fun q d => q.step d) pd := by
  induction n generalizing dt pd with
  | zero =>
    exfalso
    simp only [Nat.cast_zero, zero_mul] at hn
    exact absurd (lt_of_lt_of_le hdt hn) (lt_irrefl 0)
  | succ m ih =>
    have hstep : substepSizes (m + 1) dt
        = min dt 0.002 :: substepSizes m (dt - min dt 0.002) := by
      simp only [substepSizes]
      rw [if_pos hdt]
    have hloop : integrateLoop (m + 1) dt pd
        = integrateLoop m (dt - min dt 0.002) (pd.step (min dt 0.002)) := by
      simp only [integrateLoop]
      rw [if_pos hdt]
    by_cases hsmall : dt ≤ 0.002
    · have hmin : min dt 0.002 = dt := min_eq_left hsmall
      have hz : substepSizes m (dt - min dt 0.002) = [] := by
        apply substepSizes_nonpos
        rw [hmin]
        simp
      have hz2 : ∀ q, integrateLoop m (dt - min dt 0.002) q = q := by
        intro q
        apply integrateLoop_nonpos
        rw [hmin]
        simp
      refine ⟨?_, ?_, ?_⟩
      · rw [hstep, hz, List.sum_cons, List.sum_nil, hmin, add_zero]
      · intro d hd
        rw [hstep, hz, hmin] at hd
        simp only [List.mem_singleton] at hd
        subst hd
        exact ⟨hdt, hsmall⟩
      · rw [hloop, hz2, hstep, hz, List.foldl_cons, List.foldl_nil, hmin]
    · push_neg at hsmall
      have hmin : min dt 0.002 = 0.002 := min_eq_right hsmall.le
      have hdt' : 0 < dt - min dt 0.002 := by rw [hmin]; linarith
      have hn' : dt - min dt 0.002 ≤ m * 0.002 := by
        rw [hmin]
        push_cast at hn ⊢
        linarith
      obtain ⟨hsum, hmem, hfold⟩ :=
        ih (pd.step (min dt 0.002)) (dt - min dt 0.002) hdt' hn'
      refine ⟨?_, ?_, ?_⟩
      · rw [hstep, List.sum_cons, hsum]
        ring
      · intro d hd
        rw [hstep] at hd
        rcases List.mem_cons.mp hd with h | h
        · subst h
          rw [hmin]
          exact ⟨by norm_num, le_refl _⟩
        · exact hmem d h
      · rw [hloop, hfold, hstep, List.foldl_cons]

/-- Witness for C1: the interval 0.003 s splits into the sub-steps 0.002 s
and 0.001 s within two loop iterations. -/
theorem c1_substepping_witness :
    (substepSizes 2 0.003).sum = 0.003 ∧
    (∀ d ∈ substepSizes 2 0.003, 0 < d ∧ d ≤ 0.002) ∧
    integrateLoop 2 0.003 scenarioPendulum =
      (substepSizes 2 0.003).foldl (fun q d => q.step d) scenarioPendulum :=
  c1_substepping scenarioPendulum 0.003 2 (by norm_num) (by norm_num)

/-- The trajectory buffer: the recorded end-effector samples together with
the cursor, mirroring the fields trail_history and trail_index of the
Simulator class (src/main.py, lines 261-262). -/
structure TrailBuffer where
  history : List (ℝ × ℝ)
  index : ℕ

/-- Embedding of Simulator._append_current_point (src/main.py, lines
397-400): append the point and move the cursor to the new length. -/
def appendPoint (b : TrailBuffer) (p : ℝ × ℝ) : TrailBuffer :=
  { history := b.history ++ [p], index := (b.history ++ [p]).length }

/-- Embedding of Simulator._reset_trail_with_current (src/main.py, lines
386-390): clear the sequence, then append the supplied point. -/
def resetWith (_ : TrailBuffer) (p : ℝ × ℝ) : TrailBuffer :=
  appendPoint { history := [], index := 0 } p

/-- Embedding of Simulator._advance_trail_forward (src/main.py, lines
402-409): overwrite in place and advance when the cursor is before the
end, otherwise append. -/
def advance (b : TrailBuffer) (p : ℝ × ℝ) : TrailBuffer :=
  if b.index < b.history.length then
    { history := b.history.set b.index p, index := b.index + 1 }
  else appendPoint b p

/-- Embedding of the rewind branch of Simulator._step_frame (src/main.py,
lines 378-382): decrement the cursor with a floor of one, then overwrite
the sample now under the cursor with the supplied current point. -/
def stepBack (b : TrailBuffer) (p : ℝ × ℝ) : TrailBuffer :=
  let i := max 1 (b.index - 1)
  { history := if b.history.isEmpty then b.history else b.history.set (i - 1) p,
    index := i }

/-- C8: from any starting buffer, reset followed by three advances yields
cursor four over four samples; one step back yields cursor three and
overwrites the sample at position two with the current point; a further
advance overwrites the sample at position three in place, keeping length
four, and yields cursor four. -/
theorem c8_buffer_scenario (b : TrailBuffer) (p p1 p2 p3 pc p4 : ℝ × ℝ) :
    let b3 := advance (advance (advance (resetWith b p) p1) p2) p3
    let bb := stepBack b3 pc
    let b4 := advance bb p4
    b3.index = 4 ∧ b3.history.length = 4 ∧
    bb.index = 3 ∧ bb.history = [p, p1, pc, p3] ∧
    b4.index = 4 ∧ b4.history = [p, p1, pc, p4] ∧
    b4.history.length = 4 := by
  simp [resetWith, appendPoint, advance, stepBack, List.set]

/-- Buffer states reachable through the three trajectory-buffer
operations, starting from any reset. -/
inductive ReachableTrail : TrailBuffer → Prop
  | reset (b : TrailBuffer) (p : ℝ × ℝ) : ReachableTrail (resetWith b p)
  | adv (b : TrailBuffer) (p : ℝ × ℝ) :
      ReachableTrail b → ReachableTrail (advance b p)
  | back (b : TrailBuffer) (p : ℝ × ℝ) :
      ReachableTrail b → ReachableTrail (stepBack b p)

/-- C9: every buffer state reachable through reset, advance and step-back
keeps the cursor within bounds: at least one (hence at least zero) and at
most the number of stored samples. -/
theorem c9_trail_invariant (b : TrailBuffer) (hb : ReachableTrail b) :
    1 ≤ b.index ∧ b.index ≤ b.history.length := by
  induction hb with
  | reset b p => simp [resetWith, appendPoint]
  | adv b p _ ih =>
    obtain ⟨h1, h2⟩ := ih
    by_cases hlt : b.index < b.history.length
    · constructor
      · simp only [advance, if_pos hlt]
        omega
      · simp only [advance, if_pos hlt, List.length_set]
        omega
    · constructor
      · simp only [advance, if_neg hlt, appendPoint, List.length_append,
          List.length_singleton]
        omega
      · simp only [advance, if_neg hlt, appendPoint]
        exact le_refl _
  | back b p _ ih =>
    obtain ⟨h1, h2⟩ := ih
    have hlen : 1 ≤ b.history.length := le_trans h1 h2
    constructor
    · simp only [stepBack]
      omega
    · simp only [stepBack]
      by_cases hemp : b.history.isEmpty
      · rw [if_pos hemp]
        rw [List.isEmpty_iff_length_eq_zero] at hemp
        omega
      · rw [if_neg hemp, List.length_set]
        omega

/-- Witness for C9: the buffer produced by a reset on an empty buffer is
reachable and satisfies the invariant. -/
theorem c9_trail_invariant_witness :
    1 ≤ (resetWith ⟨[], 0⟩ (0, 0)).index ∧
    (resetWith ⟨[], 0⟩ (0, 0)).index ≤ (resetWith ⟨[], 0⟩ (0, 0)).history.length :=
  c9_trail_invariant _ (ReachableTrail.reset ⟨[], 0⟩ (0, 0))

/-- Two-argument arctangent, modelling Python math.atan2 (principal value
in the half-open interval from minus pi exclusive to pi inclusive) as the
argument of the complex number with the given real and imaginary parts. -/
noncomputable def atan2 (y x : ℝ) : ℝ := Complex.arg ⟨x, y⟩

theorem cos_atan2 (y x : ℝ) (h : x ^ 2 + y ^ 2 ≠ 0) :
    Real.cos (atan2 y x) = x / Real.sqrt (x ^ 2 + y ^ 2) := by
  have hz : (⟨x, y⟩ : ℂ) ≠ 0 := by
    intro h0
    rw [Complex.ext_iff] at h0
    apply h
    have hx : x = 0 := h0.1
    have hy : y = 0 := h0.2
    rw [hx, hy]
    ring
  rw [atan2, Complex.cos_arg hz]
  rw [Complex.abs_apply, Complex.normSq_mk]
  rw [show x * x + y * y = x ^ 2 + y ^ 2 by ring]

theorem sin_atan2 (y x : ℝ) :
    Real.sin (atan2 y x) = y / Real.sqrt (x ^ 2 + y ^ 2) := by
  rw [atan2, Complex.sin_arg]
  rw [Complex.abs_apply, Complex.normSq_mk]
  rw [show x * x + y * y = x ^ 2 + y ^ 2 by ring]

/-- Target distance from the pivot after the reachability clamp of
Simulator._apply_drag_end (src/main.py, lines 742-743); the distance is
the hypotenuse of the local target coordinates. -/
noncomputable def clampedRadius (L1 L2 x y : ℝ) : ℝ :=
  min (max (Real.sqrt (x ^ 2 + y ^ 2)) (|L1 - L2| + 1e-4)) (L1 + L2 - 1e-4)

/-- Cosine of the elbow angle by the law of cosines, before the final
clamp to the interval from -1 to 1 (src/main.py, line 745). -/
noncomputable def cosElbowRaw (L1 L2 x y : ℝ) : ℝ :=
  (clampedRadius L1 L2 x y * clampedRadius L1 L2 x y - L1 * L1 - L2 * L2)
    / (2 * L1 * L2)

/-- Embedding of the inverse-kinematics core of Simulator._apply_drag_end
(src/main.py, lines 741-756), taking the target already expressed in the
pendulum's local coordinate frame (the preceding lines 739-740 are the
host's affine screen-to-local transform).  Returns the new pair of joint
angles; the velocities are zeroed by the caller. -/
noncomputable def applyDragEnd (L1 L2 x y : ℝ) : ℝ × ℝ :=
  let cosElbow := max (-1) (min 1 (cosElbowRaw L1 L2 x y))
  let elbow := Real.arccos cosElbow
  let phi := atan2 y x
  let theta1x := phi - atan2 (L2 * Real.sin elbow) (L1 + L2 * Real.cos elbow)
  let theta2x := theta1x + elbow
  (Real.pi / 2 - theta1x, Real.pi / 2 - theta2x)

/-- Core closed-form fact about the two-link inverse kinematics: when the
elbow cosine c comes from the law of cosines at radius rc and lies
strictly between -1 and 1, the forward kinematics at the computed angles
land on the circle of radius rc in the direction of the target. -/
theorem two_link_ik (L1 L2 x y rc c e t1x : ℝ) (_hL1 : 0 < L1) (hL2 : 0 < L2)
    (hxy : 0 < x ^ 2 + y ^ 2) (hrc : 0 < rc) (hlo : -1 < c) (hhi : c < 1)
    (hc : c * (2 * L1 * L2) = rc * rc - L1 * L1 - L2 * L2)
    (he : e = Real.arccos c)
    (ht : t1x = atan2 y x - atan2 (L2 * Real.sin e) (L1 + L2 * Real.cos e)) :
    L1 * Real.cos t1x + L2 * Real.cos (t1x + e)
      = rc * (x / Real.sqrt (x ^ 2 + y ^ 2)) ∧
    L1 * Real.sin t1x + L2 * Real.sin (t1x + e)
      = rc * (y / Real.sqrt (x ^ 2 + y ^ 2)) := by
  have hc2 : 0 < (1 - c) * (1 + c) := mul_pos (by linarith) (by linarith)
  have hce : Real.cos e = c := by
    rw [he]
    exact Real.cos_arccos hlo.le hhi.le
  have hse2 : Real.sin e ^ 2 = 1 - c ^ 2 := by
    rw [he, Real.sin_arccos]
    exact Real.sq_sqrt (by nlinarith)
  have hse_pos : 0 < Real.sin e := by
    rw [he, Real.sin_arccos]
    exact Real.sqrt_pos.mpr (by nlinarith)
  have hr_pos : 0 < Real.sqrt (x ^ 2 + y ^ 2) := Real.sqrt_pos.mpr hxy
  have hr2 : Real.sqrt (x ^ 2 + y ^ 2) ^ 2 = x ^ 2 + y ^ 2 := Real.sq_sqrt hxy.le
  have hv_pos : 0 < L2 * Real.sin e := mul_pos hL2 hse_pos
  have hpos : 0 < (L1 + L2 * Real.cos e) ^ 2 + (L2 * Real.sin e) ^ 2 :=
    add_pos_of_nonneg_of_pos (sq_nonneg _) (pow_pos hv_pos 2)
  have huv : (L1 + L2 * Real.cos e) ^ 2 + (L2 * Real.sin e) ^ 2 = rc ^ 2 := by
    rw [hce]
    linear_combination L2 ^ 2 * hse2 + hc
  have hQ : Real.sqrt ((L1 + L2 * Real.cos e) ^ 2 + (L2 * Real.sin e) ^ 2) = rc := by
    rw [huv, Real.sqrt_sq hrc.le]
  have hcpsi : Real.cos (atan2 (L2 * Real.sin e) (L1 + L2 * Real.cos e))
      = (L1 + L2 * Real.cos e) / rc := by
    rw [cos_atan2 _ _ (ne_of_gt hpos), hQ]
  have hspsi : Real.sin (atan2 (L2 * Real.sin e) (L1 + L2 * Real.cos e))
      = (L2 * Real.sin e) / rc := by
    rw [sin_atan2, hQ]
  have hcphi : Real.cos (atan2 y x) = x / Real.sqrt (x ^ 2 + y ^ 2) :=
    cos_atan2 y x (ne_of_gt hxy)
  have hsphi : Real.sin (atan2 y x) = y / Real.sqrt (x ^ 2 + y ^ 2) :=
    sin_atan2 y x
  subst ht
  rw [hce] at huv
  constructor
  · rw [Real.cos_add, Real.cos_sub, Real.sin_sub,
      hcphi, hsphi, hcpsi, hspsi, hce]
    field_simp
    linear_combination Real.sqrt (x ^ 2 + y ^ 2) * x * huv
  · rw [Real.sin_add, Real.cos_sub, Real.sin_sub,
      hcphi, hsphi, hcpsi, hspsi, hce]
    field_simp
    linear_combination Real.sqrt (x ^ 2 + y ^ 2) * y * huv

/-- Bridge from the inverse-kinematics routine to forward kinematics: under
the clamp hypotheses, the joint angles it returns place the end effector
at the clamped radius in the direction of the target. -/
theorem applyDragEnd_lands (L1 L2 x y : ℝ) (hL1 : 0 < L1) (hL2 : 0 < L2)
    (hxy : 0 < x ^ 2 + y ^ 2) (hrc : 0 < clampedRadius L1 L2 x y)
    (hlo : -1 < cosElbowRaw L1 L2 x y) (hhi : cosElbowRaw L1 L2 x y < 1) :
    L1 * Real.sin (applyDragEnd L1 L2 x y).1
        + L2 * Real.sin (applyDragEnd L1 L2 x y).2
      = clampedRadius L1 L2 x y * (x / Real.sqrt (x ^ 2 + y ^ 2)) ∧
    L1 * Real.cos (applyDragEnd L1 L2 x y).1
        + L2 * Real.cos (applyDragEnd L1 L2 x y).2
      = clampedRadius L1 L2 x y * (y / Real.sqrt (x ^ 2 + y ^ 2)) := by
  have hclamp : max (-1) (min 1 (cosElbowRaw L1 L2 x y)) = cosElbowRaw L1 L2 x y := by
    rw [min_eq_right hhi.le, max_eq_right hlo.le]
  have hc : cosElbowRaw L1 L2 x y * (2 * L1 * L2)
      = clampedRadius L1 L2 x y * clampedRadius L1 L2 x y - L1 * L1 - L2 * L2 := by
    unfold cosElbowRaw
    field_simp
  obtain ⟨h1, h2⟩ := two_link_ik L1 L2 x y (clampedRadius L1 L2 x y)
    (cosElbowRaw L1 L2 x y) (Real.arccos (cosElbowRaw L1 L2 x y))
    (atan2 y x - atan2
      (L2 * Real.sin (Real.arccos (cosElbowRaw L1 L2 x y)))
      (L1 + L2 * Real.cos (Real.arccos (cosElbowRaw L1 L2 x y))))
    hL1 hL2 hxy hrc hlo hhi hc rfl rfl
  constructor
  · simp only [applyDragEnd, hclamp]
    rw [Real.sin_pi_div_two_sub, Real.sin_pi_div_two_sub]
    exact h1
  · simp only [applyDragEnd, hclamp]
    rw [Real.cos_pi_div_two_sub, Real.cos_pi_div_two_sub]
    exact h2

/-- C3 amended: for a target whose distance from the pivot lies in the
clamped interval between the absolute length difference plus 1e-4 and the
length sum minus 1e-4, inverse kinematics in end-effector mode followed by
positions() reproduces the target exactly (in particular within 1e-6). -/
theorem c3_ik_roundtrip_amended (pd : Pendulum) (x y : ℝ)
    (hL1 : 0 < pd.L1) (hL2 : 0 < pd.L2)
    (hlo : |pd.L1 - pd.L2| + 1e-4 ≤ Real.sqrt (x ^ 2 + y ^ 2))
    (hhi : Real.sqrt (x ^ 2 + y ^ 2) ≤ pd.L1 + pd.L2 - 1e-4) :
    (Pendulum.positions
      { pd with theta1 := (applyDragEnd pd.L1 pd.L2 x y).1,
                theta2 := (applyDragEnd pd.L1 pd.L2 x y).2 }).2 = (x, y) := by
  have hr_pos : 0 < Real.sqrt (x ^ 2 + y ^ 2) :=
    lt_of_lt_of_le (add_pos_of_nonneg_of_pos (abs_nonneg _) (by norm_num)) hlo
  have hxy : 0 < x ^ 2 + y ^ 2 := Real.sqrt_pos.mp hr_pos
  have hrc_eq : clampedRadius pd.L1 pd.L2 x y = Real.sqrt (x ^ 2 + y ^ 2) := by
    unfold clampedRadius
    rw [max_eq_left hlo, min_eq_left hhi]
  have hrc : 0 < clampedRadius pd.L1 pd.L2 x y := hrc_eq ▸ hr_pos
  have habs : |pd.L1 - pd.L2| < Real.sqrt (x ^ 2 + y ^ 2) := by
    have : (0 : ℝ) < 1e-4 := by norm_num
    linarith
  have hsum : Real.sqrt (x ^ 2 + y ^ 2) < pd.L1 + pd.L2 := by
    have : (0 : ℝ) < 1e-4 := by norm_num
    linarith
  have h2pos : (0 : ℝ) < 2 * pd.L1 * pd.L2 := by positivity
  have hlo' : -1 < cosElbowRaw pd.L1 pd.L2 x y := by
    unfold cosElbowRaw
    rw [hrc_eq, lt_div_iff₀ h2pos]
    nlinarith [sq_abs (pd.L1 - pd.L2), abs_nonneg (pd.L1 - pd.L2),
      mul_self_lt_mul_self (abs_nonneg (pd.L1 - pd.L2)) habs]
  have hhi' : cosElbowRaw pd.L1 pd.L2 x y < 1 := by
    unfold cosElbowRaw
    rw [hrc_eq, div_lt_iff₀ h2pos]
    nlinarith [mul_self_lt_mul_self hr_pos.le hsum]
  obtain ⟨h1, h2⟩ := applyDragEnd_lands pd.L1 pd.L2 x y hL1 hL2 hxy hrc hlo' hhi'
  rw [hrc_eq] at h1 h2
  have hx : Real.sqrt (x ^ 2 + y ^ 2) * (x / Real.sqrt (x ^ 2 + y ^ 2)) = x := by
    rw [mul_comm, div_mul_cancel₀ _ (ne_of_gt hr_pos)]
  have hy : Real.sqrt (x ^ 2 + y ^ 2) * (y / Real.sqrt (x ^ 2 + y ^ 2)) = y := by
    rw [mul_comm, div_mul_cancel₀ _ (ne_of_gt hr_pos)]
  rw [hx] at h1
  rw [hy] at h2
  simp only [Pendulum.positions]
  rw [Prod.ext_iff]
  exact ⟨h1, h2⟩

/-- Witness for the amended C3 at unit lengths and target (1, 0). -/
theorem c3_ik_roundtrip_amended_witness :
    (Pendulum.positions
      { scenarioPendulum with
          theta1 := (applyDragEnd scenarioPendulum.L1 scenarioPendulum.L2 1 0).1,
          theta2 := (applyDragEnd scenarioPendulum.L1 scenarioPendulum.L2 1 0).2 }).2
      = (1, 0) := by
  have hs : Real.sqrt ((1 : ℝ) ^ 2 + 0 ^ 2) = 1 := by
    rw [show (1 : ℝ) ^ 2 + 0 ^ 2 = 1 by norm_num, Real.sqrt_one]
  exact c3_ik_roundtrip_amended scenarioPendulum 1 0
    (by simp [scenarioPendulum])
    (by simp [scenarioPendulum])
    (by rw [hs]; simp [scenarioPendulum]; norm_num)
    (by rw [hs]; simp [scenarioPendulum]; norm_num)

/-- C3 counterexample: with unit lengths the target (2, 0) has distance
exactly L1 + L2, inside the interval the claim allows, yet the angles the
inverse kinematics produces place the end effector at (1.9999, 0), a full
1e-4 away from the target, far beyond the claimed 1e-6 tolerance. -/
theorem c3_ik_roundtrip_counterexample :
    (Pendulum.positions
      { scenarioPendulum with
          theta1 := (applyDragEnd scenarioPendulum.L1 scenarioPendulum.L2 2 0).1,
          theta2 := (applyDragEnd scenarioPendulum.L1 scenarioPendulum.L2 2 0).2 }).2
      = (1.9999, 0) ∧
    1e-6 < |(1.9999 : ℝ) - 2| := by
  have hs : Real.sqrt ((2 : ℝ) ^ 2 + 0 ^ 2) = 2 := by
    rw [show (2 : ℝ) ^ 2 + 0 ^ 2 = 2 ^ 2 by norm_num,
      Real.sqrt_sq (by norm_num : (0 : ℝ) ≤ 2)]
  have hrc_eq : clampedRadius 1 1 2 0 = 1.9999 := by
    unfold clampedRadius
    rw [hs, show |(1 : ℝ) - 1| = 0 by norm_num]
    rw [max_eq_left (by norm_num), min_eq_right (by norm_num)]
    norm_num
  have hrc : 0 < clampedRadius 1 1 2 0 := by rw [hrc_eq]; norm_num
  have hlo' : -1 < cosElbowRaw 1 1 2 0 := by
    unfold cosElbowRaw
    rw [hrc_eq]
    norm_num
  have hhi' : cosElbowRaw 1 1 2 0 < 1 := by
    unfold cosElbowRaw
    rw [hrc_eq]
    norm_num
  have hxy : (0 : ℝ) < 2 ^ 2 + 0 ^ 2 := by norm_num
  obtain ⟨h1, h2⟩ := applyDragEnd_lands 1 1 2 0 one_pos one_pos hxy hrc hlo' hhi'
  rw [hrc_eq, hs] at h1 h2
  rw [show (1.9999 : ℝ) * (2 / 2) = 1.9999 by norm_num] at h1
  rw [show (1.9999 : ℝ) * (0 / 2) = 0 by norm_num] at h2
  constructor
  · simp only [Pendulum.positions]
    rw [Prod.ext_iff]
    exact ⟨h1, h2⟩
  · rw [show |(1.9999 : ℝ) - 2| = 1e-4 by rw [abs_of_nonpos] <;> norm_num]
    norm_num

end DoublePendulumSim
